import Mathlib

set_option linter.unusedVariables false

/-!
Verification of the neural-network DMD module (`pykoopman/regression/_nndmd.py`).

The data pipeline (`SeqDataModule`), the masked loss (`MaskedMSELoss`), the
feed-forward network construction (`FFNN`), the Koopman operator families
(`StandardKoopmanOperator`, `HamiltonianKoopmanOperator`,
`DissipativeKoopmanOperator`) and the `NNDMD` facade are embedded shallowly:
pure tensor arithmetic over exact fields (ℚ for the executable data pipeline,
ℝ/ℂ for the spectral statements), Python exceptions as `Except`, tensors as
functions out of `Fin`.
-/

open scoped Matrix

namespace NNDMD

/-! ## Data windowing (`SeqDataModule.convert_seq_list_to_delayed_data`) -/

/-- Python slice `seq[a:b]` for `0 ≤ a ≤ b` on a list. -/
def pySlice {α : Type*} (seq : List α) (a b : ℕ) : List α :=
  (seq.drop a).take (b - a)

/-- The body of the `for seq in data_list` loop of
`SeqDataModule.convert_seq_list_to_delayed_data` (lines 658-671): for one
trajectory `seq`, with `n_sub_traj = len(seq) - look_back - look_forward + 1`
(computed in ℤ, as in Python), either the sliding windows `seq[i:i+look_back]`
/ `seq[i+look_back:i+look_back+look_forward]` for `i < n_sub_traj`, or — when
`n_sub_traj < 1` — the single degenerate sample `(seq[0:1], seq[1:])`. -/
def convert_one_seq {α : Type*} (look_back look_forward : ℕ) (seq : List α) :
    List (List α) × List (List α) :=
  if 1 ≤ (seq.length : ℤ) - (look_back : ℤ) - (look_forward : ℤ) + 1 then
    ((List.range (seq.length - look_back - look_forward + 1)).map
        (fun i => pySlice seq i (i + look_back)),
     (List.range (seq.length - look_back - look_forward + 1)).map
        (fun i => pySlice seq (i + look_back) (i + look_back + look_forward)))
  else
    ([pySlice seq 0 1], [seq.drop 1])

/-- Embeds `SeqDataModule.convert_seq_list_to_delayed_data` (lines 655-680): the
concatenated windowed samples over all trajectories, together with the list of
valid future-sequence lengths `[x.shape[0] for x in time_delayed_yseq_list]`
(recorded before zero-padding). -/
def convert_seq_list_to_delayed_data {α : Type*} (look_back look_forward : ℕ)
    (data_list : List (List α)) :
    List (List α) × List (List α) × List ℕ :=
  let xs := (data_list.map (fun s => (convert_one_seq look_back look_forward s).1)).flatten
  let ys := (data_list.map (fun s => (convert_one_seq look_back look_forward s).2)).flatten
  (xs, ys, ys.map List.length)

/-! ## Masked loss (`MaskedMSELoss`) -/

/-- Lines 59-62 of `MaskedMSELoss.forward`: the number of unmasked horizon
positions of a sample, `cap` if `length > cap` else `length`. -/
def length_used (cap len : ℕ) : ℕ :=
  if len > cap then cap else len

/-- Embeds `squared_diff_masked.sum()` of `MaskedMSELoss.forward`: the sum of squared
differences over the unmasked positions `mask[i, :length_used, :]` of a
`(batch, horizon, features)` tensor. -/
def maskedSqDiffSum {B H F : ℕ} (cap : ℕ) (output target : Fin B → Fin H → Fin F → ℚ)
    (target_lens : Fin B → ℕ) : ℚ :=
  ∑ i : Fin B, ∑ t : Fin H, ∑ f : Fin F,
    if (t : ℕ) < length_used cap (target_lens i) then (output i t f - target i t f) ^ 2 else 0

/-- Embeds `mask.sum()` of `MaskedMSELoss.forward`: the number of unmasked elements. -/
def maskSum (B H F : ℕ) (cap : ℕ) (target_lens : Fin B → ℕ) : ℚ :=
  ∑ _i : Fin B, ∑ _t : Fin H, ∑ _f : Fin F,
    if (_t : ℕ) < length_used cap (target_lens _i) then (1 : ℚ) else 0

/-- Embeds `MaskedMSELoss.forward` (lines 40-74): masked MSE
`squared_diff_masked.sum() / mask.sum()`. -/
def maskedMSELoss {B H F : ℕ} (cap : ℕ) (output target : Fin B → Fin H → Fin F → ℚ)
    (target_lens : Fin B → ℕ) : ℚ :=
  maskedSqDiffSum cap output target target_lens / maskSum B H F cap target_lens

/-- Embeds `torch.nn.functional.mse_loss` on a `(batch, features)` tensor (used for the
autoencoder reconstruction of `x` in `training_step`). -/
def mseLoss {B F : ℕ} (output target : Fin B → Fin F → ℚ) : ℚ :=
  (∑ i : Fin B, ∑ f : Fin F, (output i f - target i f) ^ 2) / (B * F)

/-! ## Normalization (`TensorNormalize` / `InverseTensorNormalize` /
`SeqDataModule.prepare_data`) -/

/-- Embeds `TensorNormalize.forward` (line 514): `(tensor - mean) / std`, elementwise. -/
def tensorNormalize {d : ℕ} (mean std : Fin d → ℚ) (x : Fin d → ℚ) : Fin d → ℚ :=
  fun i => (x i - mean i) / std i

/-- Embeds `InverseTensorNormalize.forward` (line 528): `tensor * std + mean`,
elementwise. -/
def inverseTensorNormalize {d : ℕ} (mean std : Fin d → ℚ) (x : Fin d → ℚ) : Fin d → ℚ :=
  fun i => x i * std i + mean i

/-- Lines 583: `self.mean = torch.FloatTensor(mean) * 0` — the stored mean is
the raw per-dimension mean multiplied by zero. -/
def prepareMean {d : ℕ} (raw_mean : Fin d → ℚ) : Fin d → ℚ :=
  fun i => raw_mean i * 0

/-- Embeds `self.std.max()` over all entries of a tensor (torch reduction; the tensor
is nonempty in any well-formed fit). -/
def tensorMax {d : ℕ} (s : Fin d → ℚ) : ℚ :=
  if h : 0 < d then
    Finset.univ.sup' (Finset.univ_nonempty_iff.mpr ⟨⟨0, h⟩⟩) s
  else 0

/-- Lines 585-588 of `SeqDataModule.prepare_data`:
`std = FloatTensor(std) * normalize_std_factor`, and in mode `"max"` it is
replaced by the constant tensor `ones * std.max()`. -/
def prepareStdScaled {d : ℕ} (normalize_mode : String) (normalize_std_factor : ℚ)
    (raw_std : Fin d → ℚ) : Fin d → ℚ :=
  if normalize_mode = "max" then
    (fun _ => tensorMax (fun i => raw_std i * normalize_std_factor))
  else
    (fun i => raw_std i * normalize_std_factor)

/-- Lines 590-593 of `SeqDataModule.prepare_data`: the divide-by-zero guard —
every entry `< 1e-6` gets `1e-3` added — applied to the scaled std. -/
def prepareStd {d : ℕ} (normalize_mode : String) (normalize_std_factor : ℚ)
    (raw_std : Fin d → ℚ) : Fin d → ℚ :=
  fun i =>
    if prepareStdScaled normalize_mode normalize_std_factor raw_std i < 1e-6 then
      prepareStdScaled normalize_mode normalize_std_factor raw_std i + 1e-3
    else
      prepareStdScaled normalize_mode normalize_std_factor raw_std i

/-! ## Feed-forward network construction (`FFNN.__init__`) -/

/-- One entry of the `nn.ModuleList` built by `FFNN.__init__`: either a
`nn.Linear(inp, out, bias)` layer or an activation module. -/
inductive NNLayer where
  | linear (inp out : ℕ) (bias : Bool)
  | act (name : String)
deriving DecidableEq, Repr

/-- Embeds `FFNN.__init__` (lines 91-133): the list of layers.  `bias` is `False`
exactly when `activations == "linear"`; with no hidden layer a single
`Linear(input_size, output_size, bias)` is appended; otherwise hidden
`Linear` layers (with an activation module after each when the activation is
not `"linear"`) are followed by a final
`Linear(hidden_sizes[-1], output_size, bias_last)` with `bias_last = False`. -/
def ffnnLayers (input_size : ℕ) (hidden_sizes : List ℕ) (output_size : ℕ)
    (activations : String) : List NNLayer :=
  let bias : Bool := decide (activations ≠ "linear")
  match hidden_sizes with
  | [] => [NNLayer.linear input_size output_size bias]
  | h0 :: rest =>
      ([NNLayer.linear input_size h0 bias]
        ++ (if activations ≠ "linear" then [NNLayer.act activations] else []))
      ++ ((List.range rest.length).flatMap (fun i =>
            [NNLayer.linear ((h0 :: rest).getD i 0) ((h0 :: rest).getD (i + 1) 0) bias]
            ++ (if activations ≠ "linear" then [NNLayer.act activations] else [])))
      ++ [NNLayer.linear ((h0 :: rest).getLastD 0) output_size false]

/-- The bias flag of the last `nn.Linear` entry of a layer list, if any. -/
def lastLinearBias (layers : List NNLayer) : Option Bool :=
  match layers.reverse.find? (fun l => match l with
    | NNLayer.linear _ _ _ => true
    | NNLayer.act _ => false) with
  | some (NNLayer.linear _ _ b) => some b
  | _ => none

/-! ## `NNDMD.fit` input dispatch, paired-array case (lines 773-790) -/

/-- The paired 2-D-array branch of `NNDMD.fit`: `t0, t1 = x, y`, then
`list_of_traj = [np.stack((t0[i], t1[i]), 0) for i in range(len(x) - 1)]`.
Each trajectory is the two-state stack `[x[i], y[i]]`. -/
def fit_paired_list_of_traj (x y : List (List ℚ)) : List (List (List ℚ)) :=
  (List.range (x.length - 1)).map (fun i => [x.getD i [], y.getD i []])

/-- Embeds `self.n_samples_ = len(list_of_traj)` in the paired branch of `NNDMD.fit`. -/
def fit_paired_n_samples (x y : List (List ℚ)) : ℕ :=
  (fit_paired_list_of_traj x y).length

/-! ## Fitted-model properties (`NNDMD` property block, lines 900-927) -/

/-- Errors a property access can raise: `sklearn.exceptions.NotFittedError`
from `check_is_fitted`, or Python's `AttributeError` from reading an instance
attribute that was never assigned. -/
inductive PyError where
  | notFittedError
  | attributeError
deriving DecidableEq, Repr

/-- The fitted attributes written at the end of `NNDMD.fit`; `none` models an
attribute that was never assigned (i.e. `fit` has not completed). -/
structure NNDMDAttrs (α : Type) where
  state_matrix : Option α
  coef : Option α
  eigenvalues : Option α
  eigenvectors : Option α
  unnormalized_modes_attr : Option α
  ur : Option α

/-- Embeds `sklearn.utils.validation.check_is_fitted(self, attr)` followed by reading
the attribute: `NotFittedError` when the attribute is absent. -/
def check_is_fitted_then_get {α : Type} (a : Option α) : Except PyError α :=
  match a with
  | none => Except.error PyError.notFittedError
  | some v => Except.ok v

/-- Property `NNDMD.coef_` (lines 900-903): `check_is_fitted` then return. -/
def coef_prop {α : Type} (m : NNDMDAttrs α) : Except PyError α :=
  check_is_fitted_then_get m.coef

/-- Property `NNDMD.state_matrix_` (lines 905-907): returns
`self._state_matrix_` directly, with NO `check_is_fitted` guard; on an
unfitted instance the attribute read raises `AttributeError`. -/
def state_matrix_prop {α : Type} (m : NNDMDAttrs α) : Except PyError α :=
  match m.state_matrix with
  | none => Except.error PyError.attributeError
  | some v => Except.ok v

/-- Property `NNDMD.eigenvalues_` (lines 909-912). -/
def eigenvalues_prop {α : Type} (m : NNDMDAttrs α) : Except PyError α :=
  check_is_fitted_then_get m.eigenvalues

/-- Property `NNDMD.eigenvectors_` (lines 914-917). -/
def eigenvectors_prop {α : Type} (m : NNDMDAttrs α) : Except PyError α :=
  check_is_fitted_then_get m.eigenvectors

/-- Property `NNDMD.unnormalized_modes` (lines 919-922). -/
def unnormalized_modes_prop {α : Type} (m : NNDMDAttrs α) : Except PyError α :=
  check_is_fitted_then_get m.unnormalized_modes_attr

/-- Property `NNDMD.ur` (lines 924-927). -/
def ur_prop {α : Type} (m : NNDMDAttrs α) : Except PyError α :=
  check_is_fitted_then_get m.ur

/-- An `NNDMD` instance on which `fit` never completed: none of the
post-training attributes exist. -/
def unfittedNNDMD : NNDMDAttrs ℕ :=
  ⟨none, none, none, none, none, none⟩

/-! ## Ingestion dtype checks (`SeqDataModule.check_list_of_nparray`) -/

/-- NumPy dtypes relevant to ingestion. -/
inductive NPDtype where
  | float16
  | float32
  | float64
  | complex64
  | complex128
  | int64
deriving DecidableEq, Repr

/-- Embeds `dtype.name`. -/
def NPDtype.name : NPDtype → String
  | .float16 => "float16"
  | .float32 => "float32"
  | .float64 => "float64"
  | .complex64 => "complex64"
  | .complex128 => "complex128"
  | .int64 => "int64"

/-- Embeds `np.iscomplexobj(x)`. -/
def NPDtype.iscomplexobj : NPDtype → Bool
  | .complex64 => true
  | .complex128 => true
  | _ => false

/-- Embeds the substring test `"float" in dtype.name` (the substring test of line 701). -/
def NPDtype.nameContainsFloat : NPDtype → Bool
  | .float16 => true
  | .float32 => true
  | .float64 => true
  | _ => false

/-- Line 696: `x.dtype is np.float64`.  In NumPy this compares the
`np.dtype` *instance* `x.dtype` against the scalar *type object*
`np.float64` by object identity (`is`), which is never `True` for any array:
a dtype instance is not the scalar type class.  (`x.dtype == np.float64`
would have been the intended equality test.) -/
def NPDtype.is_np_float64_class : NPDtype → Bool
  | _ => false

/-- The conversion loop of `check_list_of_nparray` (lines 700-704): raise
`TypeError` at the first non-float trajectory, convert `float64` arrays to
`float32`, keep the rest. -/
def convert_loop : List NPDtype → Except String (List NPDtype)
  | [] => Except.ok []
  | d :: rest =>
      if ¬ d.nameContainsFloat then Except.error "Found data is not float"
      else do
        let r ← convert_loop rest
        pure ((if d.name = "float64" then NPDtype.float32 else d) :: r)

/-- Result of `check_list_of_nparray`: whether the float64 downcast warning
was issued, and the dtypes of the returned list. -/
structure CheckResult where
  warned : Bool
  data : List NPDtype
deriving DecidableEq, Repr

/-- Embeds `SeqDataModule.check_list_of_nparray` (lines 689-706): `TypeError` when any
trajectory is complex; otherwise the warning is issued iff some trajectory
satisfies `x.dtype is np.float64` (which is vacuous, see
`NPDtype.is_np_float64_class`); then the conversion loop runs. -/
def check_list_of_nparray (data_list : List NPDtype) : Except String CheckResult :=
  if data_list.any NPDtype.iscomplexobj then
    Except.error "Complex data is not supported"
  else
    let warned := data_list.any NPDtype.is_np_float64_class
    (convert_loop data_list).map (fun l => ⟨warned, l⟩)

/-! ## `DLKoopmanRegressor` loss construction (`__init__` line 299,
`training_step` lines 409-461) -/

/-- Line 299: `self.masked_loss_metric = MaskedMSELoss(1)` — the cap of the
masked loss metric is the literal `1`, whatever `look_forward` was
configured (the commented-out alternative `MaskedMSELoss(self.look_forward)`
is not the code). -/
def dlk_masked_loss_cap (look_forward : ℕ) : ℕ := 1

/-- The loss of `DLKoopmanRegressor.training_step` (lines 409-461), at the
point where the decoded tensors have been built: `rnn_loss` is the masked
metric on the decoded propagated sequence, `rec_loss` is the unmasked MSE of
the autoencoded current state plus the masked metric on the autoencoded
future sequence, and the total is their sum.  Both masked metrics use
`masked_loss_metric`, i.e. cap `dlk_masked_loss_cap look_forward`. -/
def training_step_loss {B H F G : ℕ} (look_forward : ℕ)
    (decoded_y_seq_rnn : Fin B → Fin H → Fin F → ℚ)
    (y : Fin B → Fin H → Fin F → ℚ) (ys : Fin B → ℕ)
    (decoded_x x : Fin B → Fin G → ℚ)
    (decoded_y_seq_rec : Fin B → Fin H → Fin F → ℚ) : ℚ :=
  maskedMSELoss (dlk_masked_loss_cap look_forward) decoded_y_seq_rnn y ys
    + (mseLoss decoded_x x
        + maskedMSELoss (dlk_masked_loss_cap look_forward) decoded_y_seq_rec y ys)

/-! ## Koopman operator families (lines 149-231) -/

/-- Embeds `HamiltonianKoopmanOperator.get_K` (lines 202-203):
`off_diagonal - off_diagonal.t()`. -/
def hamiltonian_get_K {n : ℕ} (off_diagonal : Matrix (Fin n) (Fin n) ℝ) :
    Matrix (Fin n) (Fin n) ℝ :=
  off_diagonal - off_diagonal.transpose

/-- Embeds `DissipativeKoopmanOperator.get_K` (lines 229-230):
`torch.diag(diagonal) + off_diagonal - off_diagonal.t()`.  `diagonal` is the
stored (free) parameter tensor; its initializer is `-trunc_normal(...)**2`
but nothing constrains its value after training. -/
def dissipative_get_K {n : ℕ} (diagonal : Fin n → ℝ)
    (off_diagonal : Matrix (Fin n) (Fin n) ℝ) : Matrix (Fin n) (Fin n) ℝ :=
  Matrix.diagonal diagonal + off_diagonal - off_diagonal.transpose

/-- Embeds `BaseKoopmanOperator.get_discrete_time_Koopman_Operator` (lines 166-167):
`torch.matrix_exp(self.dt * self.get_K())`. -/
noncomputable def get_discrete_time_Koopman_Operator {n : ℕ} (dt : ℝ)
    (K : Matrix (Fin n) (Fin n) ℝ) : Matrix (Fin n) (Fin n) ℝ :=
  NormedSpace.exp ℝ (dt • K)

/-! ## Theorems -/

lemma convert_one_seq_snd_window {α : Type*} (seq : List α) (L : ℕ)
    (h : L + 1 ≤ seq.length) :
    (convert_one_seq 1 L seq).2 =
      (List.range (seq.length - L)).map (fun i => pySlice seq (i + 1) (i + 1 + L)) := by
  have hcond : 1 ≤ (seq.length : ℤ) - (1 : ℕ) - (L : ℤ) + 1 := by
    push_cast
    omega
  have hcount : seq.length - 1 - L + 1 = seq.length - L := by omega
  simp only [convert_one_seq, if_pos hcond, hcount]

lemma convert_one_seq_snd_degenerate {α : Type*} (seq : List α) (L : ℕ)
    (h : seq.length ≤ L) :
    (convert_one_seq 1 L seq).2 = [seq.drop 1] := by
  have hcond : ¬ 1 ≤ (seq.length : ℤ) - (1 : ℕ) - (L : ℤ) + 1 := by
    push_cast
    omega
  simp only [convert_one_seq, if_neg hcond]

lemma length_pySlice {α : Type*} (seq : List α) (a b : ℕ) :
    (pySlice seq a b).length = min (b - a) (seq.length - a) := by
  simp [pySlice]

/-- C1: with `look_back = 1` and `look_forward = L`, windowing a single
trajectory of length `T`: when `T > L + 1` it produces exactly `T - L`
samples, every recorded valid horizon length being `L`; when `T ≤ L + 1` it
produces exactly one sample, whose future sequence is the tail of the
trajectory (second state to last state), with recorded valid length `T - 1`. -/
theorem convert_seq_list_sample_count {α : Type*} (seq : List α) (L : ℕ) :
    (L + 1 < seq.length →
      (convert_seq_list_to_delayed_data 1 L [seq]).2.1.length = seq.length - L ∧
      (convert_seq_list_to_delayed_data 1 L [seq]).2.2 =
        List.replicate (seq.length - L) L) ∧
    (seq.length ≤ L + 1 →
      (convert_seq_list_to_delayed_data 1 L [seq]).2.1 = [seq.drop 1] ∧
      (convert_seq_list_to_delayed_data 1 L [seq]).2.2 = [seq.length - 1]) := by
  have hys : (convert_seq_list_to_delayed_data 1 L [seq]).2.1 = (convert_one_seq 1 L seq).2 := by
    simp [convert_seq_list_to_delayed_data]
  have hlens : (convert_seq_list_to_delayed_data 1 L [seq]).2.2 =
      ((convert_one_seq 1 L seq).2).map List.length := by
    simp [convert_seq_list_to_delayed_data]
  constructor
  · intro hT
    have hwin := convert_one_seq_snd_window seq L (by omega)
    constructor
    · rw [hys, hwin]
      simp
    · rw [hlens, hwin, List.eq_replicate_iff]
      refine ⟨by simp, ?_⟩
      intro b hb
      simp only [List.map_map, List.mem_map, List.mem_range, Function.comp_apply] at hb
      obtain ⟨i, hi, rfl⟩ := hb
      rw [length_pySlice]
      omega
  · intro hT
    rcases Nat.lt_or_ge seq.length (L + 1) with hlt | hge
    · have hdeg := convert_one_seq_snd_degenerate seq L (by omega)
      refine ⟨by rw [hys, hdeg], ?_⟩
      rw [hlens, hdeg]
      simp
    · have hTeq : seq.length = L + 1 := by omega
      have hwin := convert_one_seq_snd_window seq L (by omega)
      have hone : (convert_one_seq 1 L seq).2 = [pySlice seq 1 (1 + L)] := by
        rw [hwin, hTeq]
        have hr1 : List.range 1 = [0] := rfl
        simp [hr1]
      have hdrop : pySlice seq 1 (1 + L) = seq.drop 1 := by
        have : (1 : ℕ) + L - 1 = L := by omega
        rw [pySlice, this, List.take_of_length_le (by simp [hTeq])]
      constructor
      · rw [hys, hone, hdrop]
      · rw [hlens, hone, hdrop]
        simp [hTeq]

/-- Witness for `convert_seq_list_sample_count`: a length-4 trajectory with
`L = 1` (windowed case, 3 samples of valid length 1) and a length-2 trajectory
with `L = 3` (degenerate case, one sample of valid length 1). -/
theorem convert_seq_list_sample_count_witness :
    ((convert_seq_list_to_delayed_data 1 1 [[0, 1, 2, 3]]).2.1.length = 4 - 1 ∧
      (convert_seq_list_to_delayed_data 1 1 [[(0 : ℕ), 1, 2, 3]]).2.2 =
        List.replicate (4 - 1) 1) ∧
    ((convert_seq_list_to_delayed_data 1 3 [[0, 1]]).2.1 = [[(1 : ℕ)]] ∧
      (convert_seq_list_to_delayed_data 1 3 [[(0 : ℕ), 1]]).2.2 = [2 - 1]) := by
  refine ⟨(convert_seq_list_sample_count [0, 1, 2, 3] 1).1 (by decide), ?_⟩
  have h := (convert_seq_list_sample_count [(0 : ℕ), 1] 3).2 (by decide)
  simpa using h

lemma sum_fin_ite_lt_one {H : ℕ} (hH : 0 < H) (g : Fin H → ℚ) :
    ∑ t : Fin H, (if (t : ℕ) < 1 then g t else 0) = g ⟨0, hH⟩ := by
  rw [Finset.sum_eq_single ⟨0, hH⟩]
  · simp
  · intro t _ ht
    have hne : (t : ℕ) ≠ 0 := by
      intro h0
      exact ht (Fin.ext h0)
    have : ¬ (t : ℕ) < 1 := by omega
    simp [this]
  · intro h
    exact absurd (Finset.mem_univ _) h

lemma sum_ite_push {F : ℕ} (c : Prop) [Decidable c] (A : Fin F → ℚ) :
    (∑ f : Fin F, if c then A f else 0) = if c then (∑ f : Fin F, A f) else 0 := by
  split_ifs <;> simp

lemma length_used_cap_one {len : ℕ} (h : 1 ≤ len) : length_used 1 len = 1 := by
  unfold length_used
  split_ifs with hgt
  · rfl
  · omega

lemma length_used_le_cap (cap len : ℕ) : length_used cap len ≤ max cap len := by
  unfold length_used
  split_ifs <;> omega

lemma sum_fin_ite_lt_count {H : ℕ} (m : ℕ) :
    ∑ t : Fin H, (if (t : ℕ) < m then (1 : ℚ) else 0) = (min m H : ℕ) := by
  rw [Fin.sum_univ_eq_sum_range (fun x => if x < m then (1 : ℚ) else 0)]
  rw [Finset.sum_boole]
  congr 1
  have : (Finset.range H).filter (fun x => x < m) = Finset.range (min m H) := by
    ext x
    simp only [Finset.mem_filter, Finset.mem_range]
    omega
  rw [this, Finset.card_range]

/-- C4: with `max_look_forward = 1` and every sample's `target_lens ≥ 1`,
`MaskedMSELoss` is the squared error at horizon position 0 divided by
`batch_size * features` — independent of tensor contents beyond position 0
since they never enter the sums — and in general `mask.sum()` counts the
unmasked elements (`min(length_used, H)` positions per sample times the
feature count), not the batch size. -/
theorem maskedMSELoss_cap_one {B H F : ℕ} (hB : 0 < B) (hH : 0 < H) (hF : 0 < F)
    (output target : Fin B → Fin H → Fin F → ℚ) (target_lens : Fin B → ℕ)
    (hlens : ∀ i, 1 ≤ target_lens i) :
    maskedMSELoss 1 output target target_lens =
      (∑ i : Fin B, ∑ f : Fin F, (output i ⟨0, hH⟩ f - target i ⟨0, hH⟩ f) ^ 2)
        / (B * F) ∧
    ∀ cap, maskSum B H F cap target_lens =
      ∑ i : Fin B, ((min (length_used cap (target_lens i)) H : ℕ) : ℚ) * F := by
  have hcount : ∀ cap, maskSum B H F cap target_lens =
      ∑ i : Fin B, ((min (length_used cap (target_lens i)) H : ℕ) : ℚ) * F := by
    intro cap
    unfold maskSum
    refine Finset.sum_congr rfl (fun i _ => ?_)
    calc
      ∑ t : Fin H, ∑ f : Fin F,
          (if (t : ℕ) < length_used cap (target_lens i) then (1 : ℚ) else 0)
        = ∑ t : Fin H,
            (if (t : ℕ) < length_used cap (target_lens i) then ((F : ℚ)) else 0) := by
          refine Finset.sum_congr rfl (fun t _ => ?_)
          rw [sum_ite_push]
          split_ifs <;> simp
      _ = (∑ t : Fin H,
            (if (t : ℕ) < length_used cap (target_lens i) then (1 : ℚ) else 0)) * F := by
          rw [Finset.sum_mul]
          refine Finset.sum_congr rfl (fun t _ => ?_)
          split_ifs <;> simp
      _ = ((min (length_used cap (target_lens i)) H : ℕ) : ℚ) * F := by
          rw [sum_fin_ite_lt_count]
  refine ⟨?_, hcount⟩
  have hlu : ∀ i, length_used 1 (target_lens i) = 1 :=
    fun i => length_used_cap_one (hlens i)
  unfold maskedMSELoss
  have hnum : maskedSqDiffSum 1 output target target_lens =
      ∑ i : Fin B, ∑ f : Fin F, (output i ⟨0, hH⟩ f - target i ⟨0, hH⟩ f) ^ 2 := by
    unfold maskedSqDiffSum
    refine Finset.sum_congr rfl (fun i _ => ?_)
    simp only [hlu]
    rw [show (∑ t : Fin H, ∑ f : Fin F,
        if (t : ℕ) < 1 then (output i t f - target i t f) ^ 2 else 0)
      = ∑ t : Fin H, (if (t : ℕ) < 1 then
          (∑ f : Fin F, (output i t f - target i t f) ^ 2) else 0) from
      Finset.sum_congr rfl (fun t _ => sum_ite_push _ _)]
    exact sum_fin_ite_lt_one hH _
  have hden : maskSum B H F 1 target_lens = (B : ℚ) * F := by
    rw [hcount 1]
    have : ∀ i, ((min (length_used 1 (target_lens i)) H : ℕ) : ℚ) = 1 := by
      intro i
      rw [hlu i]
      have : min 1 H = 1 := by omega
      rw [this]
      norm_num
    calc
      ∑ i : Fin B, ((min (length_used 1 (target_lens i)) H : ℕ) : ℚ) * F
          = ∑ _i : Fin B, (F : ℚ) := by
            refine Finset.sum_congr rfl (fun i _ => ?_)
            rw [this i, one_mul]
      _ = (B : ℚ) * F := by
            simp [Finset.sum_const, Finset.card_univ, mul_comm]
  rw [hnum, hden]

/-- Witness for `maskedMSELoss_cap_one`: a 1×2×1 batch with valid length 1,
prediction 2 and garbage 7 at the padded position; the loss is 4 and the
mask count is 1. -/
theorem maskedMSELoss_cap_one_witness :
    maskedMSELoss 1 (fun (_ : Fin 1) (t : Fin 2) (_ : Fin 1) => if (t : ℕ) = 0 then (2 : ℚ) else 7)
        (fun _ _ _ => 0) (fun _ => 1) = 4 ∧
      maskSum 1 2 1 1 (fun _ => 1) = 1 := by
  have h := maskedMSELoss_cap_one (B := 1) (H := 2) (F := 1) (by decide) (by decide) (by decide)
    (fun _ t _ => if (t : ℕ) = 0 then (2 : ℚ) else 7) (fun _ _ _ => 0) (fun _ => 1)
    (fun _ => le_refl 1)
  constructor
  · rw [h.1]
    norm_num
  · rw [h.2 1]
    norm_num [length_used]

lemma maskedMSELoss_congr {B H F : ℕ} (cap : ℕ)
    (o o' t t' : Fin B → Fin H → Fin F → ℚ) (lens : Fin B → ℕ)
    (ho : ∀ i (s : Fin H) f, (s : ℕ) < length_used cap (lens i) → o i s f = o' i s f)
    (ht : ∀ i (s : Fin H) f, (s : ℕ) < length_used cap (lens i) → t i s f = t' i s f) :
    maskedMSELoss cap o t lens = maskedMSELoss cap o' t' lens := by
  unfold maskedMSELoss maskedSqDiffSum
  congr 1
  refine Finset.sum_congr rfl (fun i _ => ?_)
  refine Finset.sum_congr rfl (fun s _ => ?_)
  refine Finset.sum_congr rfl (fun f _ => ?_)
  split_ifs with hc
  · rw [ho i s f hc, ht i s f hc]
  · rfl

/-- C10: the masked loss metric of `DLKoopmanRegressor` is constructed with
cap `1` for every configured `look_forward`, and consequently the training
step's loss is unchanged under arbitrary modification of the decoded
sequences and targets at forecast positions beyond the first: only position 0
ever contributes to the two masked terms. -/
theorem dlk_training_loss_first_position_only {B H F G : ℕ} (look_forward : ℕ)
    (rnn rnn' y y' rec rec' : Fin B → Fin H → Fin F → ℚ) (ys : Fin B → ℕ)
    (dx x : Fin B → Fin G → ℚ)
    (hrnn : ∀ i (s : Fin H) f, (s : ℕ) < 1 → rnn i s f = rnn' i s f)
    (hy : ∀ i (s : Fin H) f, (s : ℕ) < 1 → y i s f = y' i s f)
    (hrec : ∀ i (s : Fin H) f, (s : ℕ) < 1 → rec i s f = rec' i s f) :
    dlk_masked_loss_cap look_forward = 1 ∧
    training_step_loss look_forward rnn y ys dx x rec =
      training_step_loss look_forward rnn' y' ys dx x rec' := by
  refine ⟨rfl, ?_⟩
  have hsub : ∀ i (s : Fin H), (s : ℕ) < length_used 1 (ys i) → (s : ℕ) < 1 := by
    intro i s hs
    unfold length_used at hs
    split_ifs at hs <;> omega
  unfold training_step_loss
  rw [maskedMSELoss_congr (dlk_masked_loss_cap look_forward) rnn rnn' y y' ys
      (fun i s f hc => hrnn i s f (hsub i s hc))
      (fun i s f hc => hy i s f (hsub i s hc)),
    maskedMSELoss_congr (dlk_masked_loss_cap look_forward) rec rec' y y' ys
      (fun i s f hc => hrec i s f (hsub i s hc))
      (fun i s f hc => hy i s f (hsub i s hc))]

/-- Witness for `dlk_training_loss_first_position_only`: with
`look_forward = 5`, changing position 1 of the decoded sequences and targets
(from 0 to 9) leaves the training-step loss unchanged. -/
theorem dlk_training_loss_first_position_only_witness :
    dlk_masked_loss_cap 5 = 1 ∧
    training_step_loss (B := 1) (H := 2) (F := 1) (G := 1) 5
        (fun _ _ _ => 2) (fun _ _ _ => 0) (fun _ => 1) (fun _ _ => 1) (fun _ _ => 1)
        (fun _ _ _ => 3) =
      training_step_loss (B := 1) (H := 2) (F := 1) (G := 1) 5
        (fun _ t _ => if (t : ℕ) = 0 then (2 : ℚ) else 9)
        (fun _ t _ => if (t : ℕ) = 0 then (0 : ℚ) else 9) (fun _ => 1)
        (fun _ _ => 1) (fun _ _ => 1)
        (fun _ t _ => if (t : ℕ) = 0 then (3 : ℚ) else 9) := by
  exact dlk_training_loss_first_position_only 5 _ _ _ _ _ _ _ _ _
    (by decide) (by decide) (by decide)

/-- C5: after the divide-by-zero guard of `prepare_data`, every entry of the
per-dimension scale is strictly positive (assuming nonnegative raw standard
deviations and a nonnegative stabilization factor, as produced by `np.std` and
the default config), for every normalization mode; consequently
`inverse_transform (normalize x) = x` exactly, the stored mean being the raw
mean times zero. -/
theorem normalize_roundtrip {d : ℕ} (normalize_mode : String)
    (normalize_std_factor : ℚ) (raw_mean raw_std : Fin d → ℚ)
    (hσ : ∀ i, 0 ≤ raw_std i) (hf : 0 ≤ normalize_std_factor) :
    (∀ i, 0 < prepareStd normalize_mode normalize_std_factor raw_std i) ∧
    (∀ (x : Fin d → ℚ) (i : Fin d),
      inverseTensorNormalize (prepareMean raw_mean)
          (prepareStd normalize_mode normalize_std_factor raw_std)
          (tensorNormalize (prepareMean raw_mean)
            (prepareStd normalize_mode normalize_std_factor raw_std) x) i = x i) := by
  have hscaled : ∀ i, 0 ≤ prepareStdScaled normalize_mode normalize_std_factor raw_std i := by
    intro i
    unfold prepareStdScaled
    have hs0 : ∀ j, 0 ≤ raw_std j * normalize_std_factor :=
      fun j => mul_nonneg (hσ j) hf
    split_ifs
    · unfold tensorMax
      rw [dif_pos i.pos]
      exact le_trans (hs0 i)
        (Finset.le_sup' (fun j => raw_std j * normalize_std_factor) (Finset.mem_univ i))
    · exact hs0 i
  have hpos : ∀ i, 0 < prepareStd normalize_mode normalize_std_factor raw_std i := by
    intro i
    unfold prepareStd
    have h3 : (0 : ℚ) < 1e-3 := by norm_num
    have h6 : (0 : ℚ) < 1e-6 := by norm_num
    split_ifs with hlt
    · linarith [hscaled i]
    · linarith [not_lt.mp hlt]
  refine ⟨hpos, ?_⟩
  intro x i
  unfold inverseTensorNormalize tensorNormalize prepareMean
  rw [mul_zero, sub_zero, add_zero]
  exact div_mul_cancel₀ (x i) (ne_of_gt (hpos i))

/-- Witness for `normalize_roundtrip`: one dimension with raw std `0` and
factor `2`; the guard floors the scale to `1e-3 > 0` and the round trip at
`x = 5` returns `5`, in both normalization modes. -/
theorem normalize_roundtrip_witness :
    (0 < prepareStd "equal" 2 (fun _ : Fin 1 => 0) 0 ∧
      inverseTensorNormalize (prepareMean (fun _ : Fin 1 => 3))
          (prepareStd "equal" 2 (fun _ => 0))
          (tensorNormalize (prepareMean (fun _ : Fin 1 => 3))
            (prepareStd "equal" 2 (fun _ => 0)) (fun _ => 5)) 0 = 5) ∧
    (0 < prepareStd "max" 2 (fun _ : Fin 1 => 0) 0 ∧
      inverseTensorNormalize (prepareMean (fun _ : Fin 1 => 3))
          (prepareStd "max" 2 (fun _ => 0))
          (tensorNormalize (prepareMean (fun _ : Fin 1 => 3))
            (prepareStd "max" 2 (fun _ => 0)) (fun _ => 5)) 0 = 5) := by
  have h1 := normalize_roundtrip (d := 1) "equal" 2 (fun _ => 3) (fun _ => 0)
    (fun _ => le_refl 0) (by norm_num)
  have h2 := normalize_roundtrip (d := 1) "max" 2 (fun _ => 3) (fun _ => 0)
    (fun _ => le_refl 0) (by norm_num)
  exact ⟨⟨h1.1 0, h1.2 (fun _ => 5) 0⟩, ⟨h2.1 0, h2.2 (fun _ => 5) 0⟩⟩

lemma lastLinearBias_append_linear (xs : List NNLayer) (a b : ℕ) (c : Bool) :
    lastLinearBias (xs ++ [NNLayer.linear a b c]) = some c := by
  unfold lastLinearBias
  rw [List.reverse_append]
  simp [List.find?]

/-- C6 counterexample: with an empty hidden-size list and a non-linear
activation, `FFNN.__init__` appends the single layer
`nn.Linear(input_size, output_size, bias)` with `bias = True` — so the last
(and only) linear layer of that network DOES carry a bias term, contradicting
the claim that the last layer never does. -/
theorem ffnn_empty_hidden_last_bias_counterexample :
    ffnnLayers 2 [] 3 "relu" = [NNLayer.linear 2 3 true] ∧
    lastLinearBias (ffnnLayers 2 [] 3 "relu") ≠ some false := by
  constructor
  · rfl
  · intro h
    simp [ffnnLayers, lastLinearBias, List.find?] at h

/-- C6 amended: whenever `hidden_sizes` is nonempty, the last linear layer of
the constructed network carries no bias; when `hidden_sizes` is empty the
single layer carries a bias exactly when the activation is not `"linear"`;
and when the activation is `"linear"`, no layer of the network carries a
bias. -/
theorem ffnn_bias_structure (input_size output_size : ℕ) (hidden_sizes : List ℕ)
    (activations : String) :
    (hidden_sizes ≠ [] →
      lastLinearBias (ffnnLayers input_size hidden_sizes output_size activations) =
        some false) ∧
    (hidden_sizes = [] →
      ffnnLayers input_size hidden_sizes output_size activations =
        [NNLayer.linear input_size output_size (decide (activations ≠ "linear"))]) ∧
    (∀ l ∈ ffnnLayers input_size hidden_sizes output_size "linear",
      ∀ a b c, l = NNLayer.linear a b c → c = false) := by
  refine ⟨?_, ?_, ?_⟩
  · intro hne
    match hidden_sizes with
    | [] => exact absurd rfl hne
    | h0 :: rest =>
      simp only [ffnnLayers]
      exact lastLinearBias_append_linear _ _ _ _
  · intro he
    subst he
    rfl
  · intro l hl a b c hlc
    subst hlc
    match hidden_sizes with
    | [] =>
      simp only [ffnnLayers, List.mem_singleton] at hl
      have : decide (("linear" : String) ≠ "linear") = false := by decide
      rw [this] at hl
      exact (NNLayer.linear.injEq _ _ _ _ _ _).mp hl |>.2.2
    | h0 :: rest =>
      have hdec : decide (("linear" : String) ≠ "linear") = false := by decide
      have hif : (if ("linear" : String) ≠ "linear" then [NNLayer.act "linear"] else []) = [] := by
        simp
      simp only [ffnnLayers, hdec, hif, List.append_nil, List.mem_append,
        List.mem_flatMap, List.mem_range, List.mem_singleton] at hl
      rcases hl with (hl | ⟨i, _, hl⟩) | hl
      · exact ((NNLayer.linear.injEq _ _ _ _ _ _).mp hl).2.2
      · exact ((NNLayer.linear.injEq _ _ _ _ _ _).mp hl).2.2
      · exact ((NNLayer.linear.injEq _ _ _ _ _ _).mp hl).2.2

/-- Witness for `ffnn_bias_structure`: a network with one hidden layer of
width 4 and `tanh` activation has final-layer bias `False`; with no hidden
layer the single layer's bias is `True` for `tanh`; and the two-hidden-layer
`"linear"` network `6 → 32 → 32 → 2` (the default decoder config) has bias
`False` on every linear layer, e.g. its first one. -/
theorem ffnn_bias_structure_witness :
    lastLinearBias (ffnnLayers 2 [4] 3 "tanh") = some false ∧
    ffnnLayers 2 [] 3 "tanh" = [NNLayer.linear 2 3 true] ∧
    (NNLayer.linear 6 32 false ∈ ffnnLayers 6 [32, 32] 2 "linear" → (false : Bool) = false) := by
  refine ⟨(ffnn_bias_structure 2 3 [4] "tanh").1 (by decide), ?_, ?_⟩
  · have h := (ffnn_bias_structure 2 3 [] "tanh").2.1 rfl
    rw [h]
    decide
  · intro hmem
    exact (ffnn_bias_structure 6 2 [32, 32] "linear").2.2 _ hmem 6 32 false rfl

/-- C7: the paired 2-D-array branch of `NNDMD.fit` iterates
`range(len(x) - 1)`, so with `N = 2` paired rows it builds only one
trajectory and `n_samples_ = 1`: the pair `(x[1], y[1])` is dropped, contrary
to the documented interpretation that every supplied (state, next-state) pair
is used.  In general the branch yields `len(x) - 1` trajectories. -/
theorem fit_paired_drops_last_pair :
    fit_paired_n_samples [[0], [1]] [[1], [2]] = 1 ∧
    ([[(0 : ℚ)], [1]] : List (List ℚ)).length = 2 ∧
    (∀ x y : List (List ℚ), fit_paired_n_samples x y = x.length - 1) := by
  refine ⟨rfl, rfl, ?_⟩
  intro x y
  simp [fit_paired_n_samples, fit_paired_list_of_traj]

/-- C8 counterexample: accessing `state_matrix_` on an unfitted `NNDMD`
raises `AttributeError` (the bare attribute read), not the sklearn
`NotFittedError`: the property has no `check_is_fitted` guard. -/
theorem state_matrix_not_fitted_counterexample :
    state_matrix_prop unfittedNNDMD = Except.error PyError.attributeError ∧
    state_matrix_prop unfittedNNDMD ≠ Except.error PyError.notFittedError := by
  refine ⟨rfl, ?_⟩
  intro h
  exact absurd (Except.error.inj h) (by decide)

/-- C8 amended: before `fit` completes, `coef_`, `eigenvalues_`,
`eigenvectors_`, `unnormalized_modes` and `ur` all raise the "not fitted"
error, while `state_matrix_` raises an `AttributeError`; every one of the six
properties fails — none returns stale or zero-initialized data. -/
theorem not_fitted_properties :
    coef_prop unfittedNNDMD = Except.error PyError.notFittedError ∧
    eigenvalues_prop unfittedNNDMD = Except.error PyError.notFittedError ∧
    eigenvectors_prop unfittedNNDMD = Except.error PyError.notFittedError ∧
    unnormalized_modes_prop unfittedNNDMD = Except.error PyError.notFittedError ∧
    ur_prop unfittedNNDMD = Except.error PyError.notFittedError ∧
    state_matrix_prop unfittedNNDMD = Except.error PyError.attributeError :=
  ⟨rfl, rfl, rfl, rfl, rfl, rfl⟩

/-- C9: ingesting a single-trajectory list of dtype `float64` converts it to
`float32` but issues NO warning — the guard `x.dtype is np.float64` is an
object-identity test of a dtype instance against the scalar type class and is
always `False` — while a complex trajectory raises the fatal
unsupported-data `TypeError` and a non-float trajectory raises the
"not float" `TypeError`. -/
theorem check_list_float64_silent_conversion :
    check_list_of_nparray [NPDtype.float64] =
      Except.ok ⟨false, [NPDtype.float32]⟩ ∧
    check_list_of_nparray [NPDtype.complex128] =
      Except.error "Complex data is not supported" ∧
    check_list_of_nparray [NPDtype.int64] =
      Except.error "Found data is not float" :=
  ⟨rfl, rfl, rfl⟩

lemma dissipative_symm_part {n : ℕ} (d : Fin n → ℝ) (S : Matrix (Fin n) (Fin n) ℝ)
    (i j : Fin n) :
    dissipative_get_K d S i j + dissipative_get_K d S j i =
      if i = j then 2 * d i else 0 := by
  unfold dissipative_get_K
  by_cases h : i = j
  · subst h
    simp [Matrix.diagonal_apply_eq]
    ring
  · simp [Matrix.sub_apply, Matrix.add_apply, Matrix.transpose_apply,
      Matrix.diagonal_apply_ne _ h, Matrix.diagonal_apply_ne _ (Ne.symm h), h]

lemma dissipative_eig_re_eq {n : ℕ} (d : Fin n → ℝ) (S : Matrix (Fin n) (Fin n) ℝ)
    (μ : ℂ) (v : Fin n → ℂ)
    (hv : ((dissipative_get_K d S).map Complex.ofReal).mulVec v = μ • v) :
    μ.re * (∑ i, Complex.normSq (v i)) = ∑ i, d i * Complex.normSq (v i) := by
  classical
  set Kc := (dissipative_get_K d S).map Complex.ofReal with hKc
  have h1 : ∀ i, Kc.mulVec v i = μ * v i := by
    intro i
    rw [hv]
    simp
  -- the quadratic form, evaluated through the eigenvalue equation
  have hq : (∑ i, (starRingEnd ℂ) (v i) * (μ * v i))
      = μ * ∑ i, ((Complex.normSq (v i) : ℝ) : ℂ) := by
    rw [Finset.mul_sum]
    refine Finset.sum_congr rfl fun i _ => ?_
    calc
      (starRingEnd ℂ) (v i) * (μ * v i) = μ * (v i * (starRingEnd ℂ) (v i)) := by ring
      _ = μ * ((Complex.normSq (v i) : ℝ) : ℂ) := by rw [Complex.mul_conj]
  -- the quadratic form, expanded entrywise
  have hexpand : (∑ i, (starRingEnd ℂ) (v i) * (μ * v i))
      = ∑ i, ∑ j, (starRingEnd ℂ) (v i) * Kc i j * v j := by
    refine Finset.sum_congr rfl fun i _ => ?_
    rw [← h1 i]
    simp only [Matrix.mulVec, Matrix.dotProduct]
    rw [Finset.mul_sum]
    exact Finset.sum_congr rfl fun j _ => (mul_assoc _ _ _).symm
  have hKcreal : ∀ i j, (starRingEnd ℂ) (Kc i j) = Kc i j := by
    intro i j
    rw [hKc]
    simp [Matrix.map_apply, Complex.conj_ofReal]
  -- the conjugate of the quadratic form transposes the matrix argument
  have hconjq : (starRingEnd ℂ) (∑ i, ∑ j, (starRingEnd ℂ) (v i) * Kc i j * v j)
      = ∑ i, ∑ j, (starRingEnd ℂ) (v i) * Kc j i * v j := by
    rw [map_sum]
    simp only [map_sum, map_mul, Complex.conj_conj, hKcreal]
    rw [Finset.sum_comm]
    refine Finset.sum_congr rfl fun i _ => Finset.sum_congr rfl fun j _ => ?_
    ring
  -- adding the two forms leaves only the diagonal of the symmetric part
  have hsum : (∑ i, ∑ j, (starRingEnd ℂ) (v i) * Kc i j * v j)
      + (∑ i, ∑ j, (starRingEnd ℂ) (v i) * Kc j i * v j)
      = ∑ i, ∑ j, (starRingEnd ℂ) (v i) * (Kc i j + Kc j i) * v j := by
    rw [← Finset.sum_add_distrib]
    refine Finset.sum_congr rfl fun i _ => ?_
    rw [← Finset.sum_add_distrib]
    refine Finset.sum_congr rfl fun j _ => ?_
    ring
  have hdiagc : ∀ i j, Kc i j + Kc j i = if i = j then ((2 * d i : ℝ) : ℂ) else 0 := by
    intro i j
    rw [hKc]
    simp only [Matrix.map_apply]
    rw [← Complex.ofReal_add, dissipative_symm_part]
    split_ifs <;> simp
  have hdouble : (∑ i, ∑ j, (starRingEnd ℂ) (v i) * (Kc i j + Kc j i) * v j)
      = ∑ i, ((2 * d i : ℝ) : ℂ) * ((Complex.normSq (v i) : ℝ) : ℂ) := by
    refine Finset.sum_congr rfl fun i _ => ?_
    rw [Finset.sum_eq_single i]
    · rw [hdiagc i i, if_pos rfl]
      calc
        (starRingEnd ℂ) (v i) * ((2 * d i : ℝ) : ℂ) * v i
            = ((2 * d i : ℝ) : ℂ) * (v i * (starRingEnd ℂ) (v i)) := by ring
        _ = ((2 * d i : ℝ) : ℂ) * ((Complex.normSq (v i) : ℝ) : ℂ) := by
            rw [Complex.mul_conj]
    · intro j _ hj
      rw [hdiagc i j, if_neg (fun h => hj h.symm)]
      ring
    · intro h
      exact absurd (Finset.mem_univ _) h
  -- assemble: q + conj q computed both ways
  have hcombined : μ * (∑ i, ((Complex.normSq (v i) : ℝ) : ℂ))
      + (starRingEnd ℂ) μ * (∑ i, ((Complex.normSq (v i) : ℝ) : ℂ))
      = ∑ i, ((2 * d i : ℝ) : ℂ) * ((Complex.normSq (v i) : ℝ) : ℂ) := by
    have hconj_of_q : (starRingEnd ℂ) (μ * ∑ i, ((Complex.normSq (v i) : ℝ) : ℂ))
        = (starRingEnd ℂ) μ * (∑ i, ((Complex.normSq (v i) : ℝ) : ℂ)) := by
      rw [map_mul]
      congr 1
      rw [map_sum]
      exact Finset.sum_congr rfl fun i _ => Complex.conj_ofReal _
    calc
      μ * (∑ i, ((Complex.normSq (v i) : ℝ) : ℂ))
          + (starRingEnd ℂ) μ * (∑ i, ((Complex.normSq (v i) : ℝ) : ℂ))
          = (∑ i, ∑ j, (starRingEnd ℂ) (v i) * Kc i j * v j)
            + (starRingEnd ℂ) (∑ i, ∑ j, (starRingEnd ℂ) (v i) * Kc i j * v j) := by
            rw [← hq, ← hexpand]
            rw [hq, hconj_of_q]
      _ = ∑ i, ∑ j, (starRingEnd ℂ) (v i) * (Kc i j + Kc j i) * v j := by
            rw [hconjq]
            exact hsum
      _ = ∑ i, ((2 * d i : ℝ) : ℂ) * ((Complex.normSq (v i) : ℝ) : ℂ) := hdouble
  -- extract the real equation
  have hreal : (((2 * μ.re) * ∑ i, Complex.normSq (v i) : ℝ) : ℂ)
      = ((2 * ∑ i, d i * Complex.normSq (v i) : ℝ) : ℂ) := by
    have hμ : μ + (starRingEnd ℂ) μ = ((2 * μ.re : ℝ) : ℂ) := Complex.add_conj μ
    calc
      (((2 * μ.re) * ∑ i, Complex.normSq (v i) : ℝ) : ℂ)
          = ((2 * μ.re : ℝ) : ℂ) * (∑ i, ((Complex.normSq (v i) : ℝ) : ℂ)) := by
            push_cast
            rw [Finset.mul_sum]
      _ = (μ + (starRingEnd ℂ) μ) * (∑ i, ((Complex.normSq (v i) : ℝ) : ℂ)) := by
            rw [hμ]
      _ = μ * (∑ i, ((Complex.normSq (v i) : ℝ) : ℂ))
            + (starRingEnd ℂ) μ * (∑ i, ((Complex.normSq (v i) : ℝ) : ℂ)) := by
            ring
      _ = ∑ i, ((2 * d i : ℝ) : ℂ) * ((Complex.normSq (v i) : ℝ) : ℂ) := hcombined
      _ = ((2 * ∑ i, d i * Complex.normSq (v i) : ℝ) : ℂ) := by
            push_cast
            rw [Finset.mul_sum]
            exact Finset.sum_congr rfl fun i _ => by ring
  have := Complex.ofReal_inj.mp hreal
  linarith

lemma eig_normSq_sum_pos {n : ℕ} (v : Fin n → ℂ) (hv0 : v ≠ 0) :
    0 < ∑ i, Complex.normSq (v i) := by
  obtain ⟨i, hi⟩ := Function.ne_iff.mp hv0
  refine Finset.sum_pos' (fun j _ => Complex.normSq_nonneg _) ⟨i, Finset.mem_univ i, ?_⟩
  exact Complex.normSq_pos.mpr hi

/-- C2 counterexample: the `diagonal` tensor of `DissipativeKoopmanOperator`
is a free parameter (only its initializer is `-v²`), so the value
`diagonal = [1]`, `off_diagonal = 0` is a legal parameter state; there
`get_K = [[1]]` has the eigenvector `[1]` with eigenvalue `1`, whose real
part is positive — the claim fails for some parameter values. -/
theorem dissipative_positive_eigenvalue_counterexample :
    ((dissipative_get_K (fun _ : Fin 1 => (1 : ℝ)) 0).map Complex.ofReal).mulVec
        (fun _ => 1) = ((1 : ℂ)) • (fun _ : Fin 1 => (1 : ℂ)) ∧
    (fun _ : Fin 1 => (1 : ℂ)) ≠ 0 ∧
    ¬ ((1 : ℂ)).re ≤ 0 := by
  refine ⟨?_, ?_, ?_⟩
  · funext i
    have hi : i = 0 := Subsingleton.elim _ _
    subst hi
    simp [dissipative_get_K, Matrix.mulVec, Matrix.dotProduct, Matrix.map_apply,
      Fin.sum_univ_one, Matrix.diagonal_apply_eq, Matrix.one_apply_eq]
  · intro h
    have := congrFun h 0
    simp at this
  · simp [Complex.one_re]

/-- C2 amended: whenever every entry of the `diagonal` parameter tensor is
non-positive (as the initializer `-v²` produces), every eigenvalue `μ` of the
generator `K` returned by `DissipativeKoopmanOperator.get_K` has
`μ.re ≤ 0`, and the corresponding eigenvalue `exp(dt·μ)` of the discrete
operator `exp(dt·K)` has magnitude at most 1 (for the nonnegative timestep
`dt`). -/
theorem dissipative_eigenvalues_stable {n : ℕ} (diagonal : Fin n → ℝ)
    (off_diagonal : Matrix (Fin n) (Fin n) ℝ) (dt : ℝ) (μ : ℂ) (v : Fin n → ℂ)
    (hd : ∀ i, diagonal i ≤ 0) (hdt : 0 ≤ dt)
    (hv : ((dissipative_get_K diagonal off_diagonal).map Complex.ofReal).mulVec v = μ • v)
    (hv0 : v ≠ 0) :
    μ.re ≤ 0 ∧ Complex.abs (Complex.exp ((dt : ℂ) * μ)) ≤ 1 := by
  have hkey := dissipative_eig_re_eq diagonal off_diagonal μ v hv
  have hpos := eig_normSq_sum_pos v hv0
  have hsum_nonpos : (∑ i, diagonal i * Complex.normSq (v i)) ≤ 0 :=
    Finset.sum_nonpos fun i _ =>
      mul_nonpos_iff.mpr (Or.inr ⟨hd i, Complex.normSq_nonneg _⟩)
  have hre : μ.re ≤ 0 := by
    by_contra hgt
    push_neg at hgt
    nlinarith
  refine ⟨hre, ?_⟩
  rw [Complex.abs_exp]
  have hre_mul : ((dt : ℂ) * μ).re = dt * μ.re := by
    simp [Complex.mul_re]
  rw [hre_mul]
  exact Real.exp_le_one_iff.mpr (mul_nonpos_iff.mpr (Or.inl ⟨hdt, hre⟩))

/-- Witness for `dissipative_eigenvalues_stable`: `diagonal = [-1]`,
`off_diagonal = 0`, `dt = 1`, eigenpair `(-1, [1])`. -/
theorem dissipative_eigenvalues_stable_witness :
    ((-1 : ℂ)).re ≤ 0 ∧ Complex.abs (Complex.exp (((1 : ℝ) : ℂ) * (-1 : ℂ))) ≤ 1 := by
  refine dissipative_eigenvalues_stable (fun _ : Fin 1 => (-1 : ℝ)) 0 1 (-1)
    (fun _ => 1) (fun _ => by norm_num) (by norm_num) ?_ ?_
  · funext i
    have hi : i = 0 := Subsingleton.elim _ _
    subst hi
    simp [dissipative_get_K, Matrix.mulVec, Matrix.dotProduct, Matrix.map_apply,
      Fin.sum_univ_one, Matrix.diagonal_apply_eq]
  · intro h
    have := congrFun h 0
    simp at this

lemma hamiltonian_eq_dissipative_zero {n : ℕ} (S : Matrix (Fin n) (Fin n) ℝ) :
    hamiltonian_get_K S = dissipative_get_K (fun _ => 0) S := by
  unfold hamiltonian_get_K dissipative_get_K
  rw [show Matrix.diagonal (fun _ : Fin n => (0 : ℝ)) = 0 from Matrix.diagonal_zero]
  rw [zero_add]

/-- C3: the generator of `HamiltonianKoopmanOperator` is `S - Sᵀ`, hence
skew-symmetric; every eigenvalue of it is purely imaginary; and the discrete
operator `exp(dt·K)` is orthogonal: `Aᵀ·A = I`, for every parameter `S` and
timestep `dt`. -/
theorem hamiltonian_skew_orthogonal {n : ℕ} (off_diagonal : Matrix (Fin n) (Fin n) ℝ)
    (dt : ℝ) :
    (hamiltonian_get_K off_diagonal).transpose = - hamiltonian_get_K off_diagonal ∧
    (∀ (μ : ℂ) (v : Fin n → ℂ),
      ((hamiltonian_get_K off_diagonal).map Complex.ofReal).mulVec v = μ • v →
      v ≠ 0 → μ.re = 0) ∧
    (get_discrete_time_Koopman_Operator dt (hamiltonian_get_K off_diagonal)).transpose *
        get_discrete_time_Koopman_Operator dt (hamiltonian_get_K off_diagonal) = 1 := by
  have hskew : (hamiltonian_get_K off_diagonal).transpose = - hamiltonian_get_K off_diagonal := by
    unfold hamiltonian_get_K
    rw [Matrix.transpose_sub, Matrix.transpose_transpose]
    abel
  refine ⟨hskew, ?_, ?_⟩
  · intro μ v hv hv0
    rw [hamiltonian_eq_dissipative_zero] at hv
    have hkey := dissipative_eig_re_eq (fun _ => 0) off_diagonal μ v hv
    have hpos := eig_normSq_sum_pos v hv0
    simp only [zero_mul, Finset.sum_const_zero] at hkey
    rcases mul_eq_zero.mp hkey with h | h
    · exact h
    · exact absurd h (ne_of_gt hpos)
  · unfold get_discrete_time_Koopman_Operator
    have hKt : (dt • hamiltonian_get_K off_diagonal).transpose =
        - (dt • hamiltonian_get_K off_diagonal) := by
      rw [Matrix.transpose_smul, hskew, smul_neg]
    rw [← Matrix.exp_transpose, hKt]
    rw [← Matrix.exp_add_of_commute ℝ _ _ (Commute.neg_left (Commute.refl _))]
    rw [neg_add_cancel, NormedSpace.exp_zero]

/-- Witness for `hamiltonian_skew_orthogonal`: `S = [[0,1],[0,0]]` gives
`K = [[0,1],[-1,0]]` with eigenpair `(i, (1, i))`, whose eigenvalue has zero
real part; the skewness and orthogonality conjuncts are instantiated at the
same `S` with `dt = 1`. -/
theorem hamiltonian_skew_orthogonal_witness :
    (hamiltonian_get_K (Matrix.of ![![(0 : ℝ), 1], ![0, 0]])).transpose =
      - hamiltonian_get_K (Matrix.of ![![(0 : ℝ), 1], ![0, 0]]) ∧
    Complex.I.re = 0 ∧
    (get_discrete_time_Koopman_Operator 1
        (hamiltonian_get_K (Matrix.of ![![(0 : ℝ), 1], ![0, 0]]))).transpose *
      get_discrete_time_Koopman_Operator 1
        (hamiltonian_get_K (Matrix.of ![![(0 : ℝ), 1], ![0, 0]])) = 1 := by
  have h := hamiltonian_skew_orthogonal (Matrix.of ![![(0 : ℝ), 1], ![0, 0]]) 1
  have hK : hamiltonian_get_K (Matrix.of ![![(0 : ℝ), 1], ![0, 0]]) =
      Matrix.of ![![0, 1], ![-1, 0]] := by
    funext i j
    fin_cases i <;> fin_cases j <;>
      simp [hamiltonian_get_K, Matrix.sub_apply, Matrix.transpose_apply,
        Matrix.vecHead, Matrix.vecTail]
  refine ⟨h.1, ?_, h.2.2⟩
  refine h.2.1 Complex.I (fun k => if k = 0 then 1 else Complex.I) ?_ ?_
  · rw [hK]
    funext i
    fin_cases i <;>
      simp [Matrix.mulVec, Matrix.dotProduct, Matrix.map_apply, Fin.sum_univ_two,
        Complex.I_mul_I]
  · intro hz
    have := congrFun hz 0
    simp at this

end NNDMD
